import Mathlib

/-!
Verification development for the piwardrive native extension modules.

The repository consists of two C source files:

* `src/piwardrive/ckml.c` — `parse_coords`, a permissive parser turning a
  text blob of whitespace-separated `lon,lat[,alt]` tokens into a list of
  `(lat, lon)` pairs.  Numeric fields are read with the C library function
  `strtod`.
* `cgeom.c` — `haversine_distance`, `polygon_area` and `point_in_polygon`
  over `(lat, lon)` pairs.

The embedding below models the C `double` values by exact numbers: by `ℚ`
for the parser (its arithmetic is plain decimal-literal evaluation) and by
`ℝ` for the geometry functions (which use `sin`, `cos`, `sqrt`, `atan2`).
Strings are modelled as `List Char`.
-/

namespace Ckml

/-- C `isspace` on the default locale: space (32), tab (9), newline (10),
vertical tab (11), form feed (12), carriage return (13). -/
def isSpaceC (c : Char) : Bool := c.toNat == 32 || (9 ≤ c.toNat && c.toNat ≤ 13)

/-- C `isdigit`: the characters `'0'`(48) … `'9'`(57). -/
def isDigitC (c : Char) : Bool := 48 ≤ c.toNat && c.toNat ≤ 57

/-- Value of a digit string, most significant digit first. -/
def digitsNat (ds : List Char) : Nat := ds.foldl (fun a c => 10 * a + (c.toNat - 48)) 0

/-- `10 ^ n` in `ℚ`, by structural recursion so that it evaluates by kernel
reduction. -/
def tenPow : Nat → ℚ
  | 0 => 1
  | n + 1 => 10 * tenPow n

/-- `10 ^ e` for an integer exponent. -/
def qpow10 : Int → ℚ
  | Int.ofNat n => tenPow n
  | Int.negSucc n => 1 / tenPow (n + 1)

/-- Exponent body of a `strtod` literal, after the `e`/`E` marker:
optional sign followed by at least one digit.  Returns the signed exponent
value and the number of characters consumed *including* the marker; if no
digit follows, the whole exponent part is rejected (0 characters). -/
def expTail (r : List Char) : Int × Nat :=
  let s : Nat := if r.head? = some '-' || r.head? = some '+' then 1 else 0
  let sg : Int := if r.head? = some '-' then -1 else 1
  let eds := (r.drop s).takeWhile isDigitC
  if eds.length = 0 then (0, 0)
  else (sg * (digitsNat eds : Int), 1 + s + eds.length)

/-- Optional exponent part of a `strtod` literal. -/
def expPart (l : List Char) : Int × Nat :=
  if l.head? = some 'e' || l.head? = some 'E' then expTail (l.drop 1) else (0, 0)

/-- The unsigned numeric part of a `strtod` literal: digits, an optional
`'.'` with fraction digits, and an optional exponent.  Returns the value
and the characters consumed; `(0, 0)` when the mantissa has no digit at
all (no conversion). -/
def strtodNum (l : List Char) : ℚ × Nat :=
  let ds := l.takeWhile isDigitC
  let r3 := l.drop ds.length
  let fr := if r3.head? = some '.' then (r3.drop 1).takeWhile isDigitC else []
  let fl : Nat := if r3.head? = some '.' then 1 + fr.length else 0
  if ds.length = 0 && fr.length = 0 then (0, 0)
  else
    let ep := expPart (r3.drop fl)
    (((digitsNat ds : ℚ) + (digitsNat fr : ℚ) / tenPow fr.length) * qpow10 ep.1,
      ds.length + fl + ep.2)

/-- A `strtod` literal after the leading whitespace: an optional sign and
the numeric part.  The sign character only counts as consumed when a
conversion is actually performed. -/
def strtodBody (l : List Char) : ℚ × Nat :=
  if l.head? = some '-' then
    let b := strtodNum (l.drop 1)
    if b.2 = 0 then (0, 0) else (-b.1, 1 + b.2)
  else if l.head? = some '+' then
    let b := strtodNum (l.drop 1)
    if b.2 = 0 then (0, 0) else (b.1, 1 + b.2)
  else strtodNum l

/-- Modelled from the spec: the C library function `strtod` (the repository
calls libc; only its behaviour is specified), restricted to decimal forms:
skip leading whitespace, then an optional sign, digits with an optional
`'.'` and fraction digits, and an optional `e`/`E` exponent.  Hexadecimal,
infinity and NaN forms are not modelled.  Returns the parsed value and the
total number of characters consumed; if no conversion can be performed the
result is `(0, 0)` (libc leaves `endptr` at the start of the input). -/
def strtod (l : List Char) : ℚ × Nat :=
  let w := (l.takeWhile isSpaceC).length
  let b := strtodBody (l.drop w)
  if b.2 = 0 then (0, 0) else (b.1, w + b.2)

/-- The numeric value `strtod` reads from the front of a text. -/
def litVal (a : List Char) : ℚ := (strtod a).1

/-- One execution of the `while (p < end)` loop of `parse_coords`
(`src/piwardrive/ckml.c`, lines 17–39), fuelled by the iteration count.
Each iteration consumes at least one character, so `l.length + 1` units of
fuel always suffice (`parseLoop_fuel`). -/
def parseLoop : Nat → List Char → List (ℚ × ℚ)
  | 0, _ => []
  | fuel + 1, l =>
    let p := l.drop (l.takeWhile isSpaceC).length
    if p = [] then []
    else
      let lon := (strtod p).1
      let p1 := p.drop (strtod p).2
      let p2 := if p1.head? = some ',' then p1.drop 1 else p1
      let lat := (strtod p2).1
      let p3 := p2.drop (strtod p2).2
      let p4 := if p3.head? = some ',' then p3.drop (1 + (strtod (p3.drop 1)).2) else p3
      (lat, lon) :: parseLoop fuel (p4.drop (p4.takeWhile (fun c => !isSpaceC c)).length)

/-- `parse_coords` from `src/piwardrive/ckml.c`: repeatedly skip
whitespace, read `lon` with `strtod`, skip one `','`, read `lat`, skip an
optional `,alt` field (parsed and discarded), emit `(lat, lon)`, then skip
the rest of the token (non-whitespace characters). -/
def parse_coords (l : List Char) : List (ℚ × ℚ) := parseLoop (l.length + 1) l

/-- Splitting a text into maximal whitespace-separated tokens (the
vocabulary of the specification's grammar), with the same fuel pattern as
`parseLoop`. -/
def tokenizeLoop : Nat → List Char → List (List Char)
  | 0, _ => []
  | fuel + 1, l =>
    let p := l.drop (l.takeWhile isSpaceC).length
    if p = [] then []
    else
      let t := p.takeWhile (fun c => !isSpaceC c)
      t :: tokenizeLoop fuel (p.drop t.length)

/-- The list of maximal whitespace-separated tokens of a text. -/
def tokenize (l : List Char) : List (List Char) := tokenizeLoop (l.length + 1) l

/-- A plain decimal literal: an optional sign, a nonempty run of digits,
and an optional `'.'` followed by (possibly zero) digits.  These are the
number fields of the specification's token grammar; `strtod` consumes such
a literal exactly when it is followed by a field separator. -/
def litB (a : List Char) : Bool :=
  let r1 := if a.head? = some '+' || a.head? = some '-' then a.drop 1 else a
  let ds := r1.takeWhile isDigitC
  let r2 := r1.drop ds.length
  ds.length ≠ 0 && (r2.isEmpty || (r2.head? = some '.' && (r2.drop 1).all isDigitC))

/-- A well-formed token of the specification's grammar, `lon,lat` or
`lon,lat,alt`, with every field a plain decimal literal; `pr` is the
`(lat, lon)` pair the parser is specified to produce for it. -/
def WFTok (t : List Char) (pr : ℚ × ℚ) : Prop :=
  (∃ a b, t = a ++ (',' :: b) ∧ litB a = true ∧ litB b = true ∧
    pr = ((strtod b).1, (strtod a).1)) ∨
  (∃ a b c, t = a ++ (',' :: (b ++ (',' :: c))) ∧ litB a = true ∧ litB b = true ∧
    litB c = true ∧ pr = ((strtod b).1, (strtod a).1))

/-- Inputs that follow the specification's grammar: whitespace-separated
well-formed tokens, together with the pair list they stand for. -/
inductive GoodInput : List Char → List (ℚ × ℚ) → Prop
  | nil (ws : List Char) (hws : ∀ c ∈ ws, isSpaceC c = true) : GoodInput ws []
  | cons (ws t rest : List Char) (pr : ℚ × ℚ) (ps : List (ℚ × ℚ))
      (hws : ∀ c ∈ ws, isSpaceC c = true) (ht : WFTok t pr)
      (hrest : rest = [] ∨ ∃ c r, rest = c :: r ∧ isSpaceC c = true)
      (hg : GoodInput rest ps) : GoodInput (ws ++ t ++ rest) (pr :: ps)

/-- What may legally follow a numeric field inside a well-formed input: the
end of the text, a comma, or whitespace.  On such a remainder `strtod`
cannot consume any further character. -/
def Sep (r : List Char) : Prop :=
  r = [] ∨ ∃ c t, r = c :: t ∧ (c = ',' ∨ isSpaceC c = true)

end Ckml

namespace Cgeom

open Real

/-- C99 `atan2` on exact reals (the signed-zero distinction of IEEE-754
collapses to the single real `0`, for which C99 specifies
`atan2(+0, +0) = +0`). -/
noncomputable def atan2 (y x : ℝ) : ℝ :=
  if 0 < x then Real.arctan (y / x)
  else if x < 0 ∧ 0 ≤ y then Real.arctan (y / x) + π
  else if x < 0 ∧ y < 0 then Real.arctan (y / x) - π
  else if x = 0 ∧ 0 < y then π / 2
  else if x = 0 ∧ y < 0 then -(π / 2)
  else 0

/-- `py_haversine_distance` (`cgeom.c`, lines 5–20): haversine formula on a
sphere of radius 6 371 000 m.  Points are `(lat, lon)` pairs in degrees. -/
noncomputable def haversine_distance (a b : ℝ × ℝ) : ℝ :=
  let r : ℝ := 6371000.0
  let phi1 := a.1 * π / 180.0
  let phi2 := b.1 * π / 180.0
  let dPhi := (b.1 - a.1) * π / 180.0
  let dLambda := (b.2 - a.2) * π / 180.0
  let h := Real.sin (dPhi / 2) * Real.sin (dPhi / 2) +
    Real.cos phi1 * Real.cos phi2 * (Real.sin (dLambda / 2) * Real.sin (dLambda / 2))
  let c := 2 * atan2 (Real.sqrt h) (Real.sqrt (1 - h))
  r * c

/-- The shoelace cross term `prev_x * y - x * prev_y` accumulated by the
loop of `py_polygon_area` (`cgeom.c`, line 66). -/
def crossT (prev curr : ℝ × ℝ) : ℝ := prev.1 * curr.2 - curr.1 * prev.2

/-- Mean of the vertex latitudes (`lat0` at `cgeom.c`, line 45). -/
noncomputable def latCent (ring : List (ℝ × ℝ)) : ℝ :=
  (ring.map Prod.fst).sum / ring.length

/-- Mean of the vertex longitudes (`lon0` at `cgeom.c`, line 46). -/
noncomputable def lonCent (ring : List (ℝ × ℝ)) : ℝ :=
  (ring.map Prod.snd).sum / ring.length

/-- The equirectangular projection of one vertex
(`x = (lon - lon0) * cos_lat0`, `y = lat - lat0`; `cgeom.c`, lines 64–65). -/
def projPt (lat0 lon0 cosLat0 : ℝ) (c : ℝ × ℝ) : ℝ × ℝ :=
  ((c.2 - lon0) * cosLat0, c.1 - lat0)

/-- Sum of `crossT` over consecutive pairs, seeded with a previous point:
`adjSum q [p₁, …, pₘ] = crossT q p₁ + crossT p₁ p₂ + ⋯ + crossT pₘ₋₁ pₘ`. -/
def adjSum : (ℝ × ℝ) → List (ℝ × ℝ) → ℝ
  | _, [] => 0
  | q, p :: rest => crossT q p + adjSum p rest

/-- The cyclic shoelace sum of a projected ring, indexed over positions:
term `i` pairs vertex `(i + n − 1) mod n` (the predecessor in the closed
ring) with vertex `i`, exactly the pairing of the `py_polygon_area` loop. -/
def ringSum (l : List (ℝ × ℝ)) : ℝ :=
  ∑ i ∈ Finset.range l.length,
    crossT (l.getD ((i + (l.length - 1)) % l.length) (0, 0)) (l.getD i (0, 0))

/-- `py_polygon_area` (`cgeom.c`, lines 22–75): mean-vertex centroid,
equirectangular projection, shoelace accumulation with `prev` initialised
to the projected last vertex, then `fabs(area)/2 * 111320²`.  The loop is
rendered as a fold carrying the `(area, prev)` state. -/
noncomputable def polygon_area (ring : List (ℝ × ℝ)) : ℝ :=
  if ring.length < 3 then 0
  else
    let lat0 := latCent ring
    let lon0 := lonCent ring
    let cosLat0 := Real.cos (lat0 * π / 180.0)
    let pts := ring.map (projPt lat0 lon0 cosLat0)
    let prev0 := pts.getLast?.getD (0, 0)
    let acc := pts.foldl (fun st pt => (st.1 + crossT st.2 pt, pt)) ((0 : ℝ), prev0)
    |acc.1| / 2 * 111320.0 * 111320.0

/-- The area computation as worded by the specification (§4.3): centroid of
the vertices, projection, shoelace sum over the closed ring, wrapping from
the last point back to the first, written as a zip of each vertex with its
predecessor, absolute value, halving, and the `111320²` scale factor. -/
noncomputable def polygon_area_spec (ring : List (ℝ × ℝ)) : ℝ :=
  let lat0 := (ring.map Prod.fst).sum / ring.length
  let lon0 := (ring.map Prod.snd).sum / ring.length
  let pts := ring.map fun c =>
    ((c.2 - lon0) * Real.cos (lat0 * π / 180.0), c.1 - lat0)
  let pairs := (pts.rotate (ring.length - 1)).zip pts
  1 / 2 * |(pairs.map fun pc => pc.1.1 * pc.2.2 - pc.2.1 * pc.1.2).sum| *
    (111320.0 * 111320.0)

/-- The toggle condition of one `py_point_in_polygon` loop iteration for
edge `i`: the edge longitudes straddle the test longitude, and the test
latitude is below the interpolated crossing latitude (with the `1e-12`
denominator guard). -/
def Cross (p : ℝ × ℝ) (poly : List (ℝ × ℝ)) (i : ℕ) : Prop :=
  Xor' ((poly.getD i (0, 0)).2 > p.2) ((poly.getD ((i + 1) % poly.length) (0, 0)).2 > p.2) ∧
  p.1 < ((poly.getD ((i + 1) % poly.length) (0, 0)).1 - (poly.getD i (0, 0)).1) *
      (p.2 - (poly.getD i (0, 0)).2) /
      ((poly.getD ((i + 1) % poly.length) (0, 0)).2 - (poly.getD i (0, 0)).2 + 1e-12) +
    (poly.getD i (0, 0)).1

/-- The crossing condition is decidable (classically, through the real
order). -/
noncomputable instance (p : ℝ × ℝ) (poly : List (ℝ × ℝ)) :
    DecidablePred (Cross p poly) := fun i => by
  unfold Cross
  infer_instance

/-- `py_point_in_polygon` (`cgeom.c`, lines 77–111): even-odd ray casting.
For each edge `(poly[i], poly[(i+1) % n])` whose longitudes straddle the
test longitude, the crossing latitude is interpolated with the `1e-12`
denominator guard, and an `inside` flag is toggled when the test latitude
lies below it. -/
noncomputable def point_in_polygon (p : ℝ × ℝ) (poly : List (ℝ × ℝ)) : Bool :=
  if poly.length < 3 then false
  else
    let n := poly.length
    (List.range n).foldl
      (fun inside i =>
        let p1 := poly.getD i (0, 0)
        let p2 := poly.getD ((i + 1) % n) (0, 0)
        if Xor' (p1.2 > p.2) (p2.2 > p.2) then
          if p.1 < (p2.1 - p1.1) * (p.2 - p1.2) / (p2.2 - p1.2 + 1e-12) + p1.1 then
            !inside
          else inside
        else inside)
      false

end Cgeom

/-! ### Parser lemmas -/

namespace Ckml

theorem takeWhile_append_all (p : Char → Bool) (xs r : List Char)
    (h : ∀ c ∈ xs, p c = true) : (xs ++ r).takeWhile p = xs ++ r.takeWhile p := by
  induction xs with
  | nil => rfl
  | cons a xs ih =>
    rw [List.cons_append, List.takeWhile_cons, if_pos (h a (by simp)), List.cons_append,
      ih fun c hc => h c (by simp [hc])]

theorem takeWhile_eq_nil_head (p : Char → Bool) (l : List Char)
    (h : ∀ c, l.head? = some c → p c = false) : l.takeWhile p = [] := by
  cases l with
  | nil => rfl
  | cons a l => simp [List.takeWhile_cons, h a rfl]

theorem takeWhile_add_drop (p : Char → Bool) (l : List Char) :
    l.takeWhile p ++ l.drop (l.takeWhile p).length = l := by
  induction l with
  | nil => rfl
  | cons a l ih =>
    by_cases h : p a = true
    · simp [List.takeWhile_cons, h, ih]
    · simp [List.takeWhile_cons, Bool.of_not_eq_true h]

theorem mem_takeWhile_pred (p : Char → Bool) (l : List Char) :
    ∀ c ∈ l.takeWhile p, p c = true := by
  induction l with
  | nil => simp
  | cons a l ih =>
    by_cases h : p a = true
    · simp only [List.takeWhile_cons, h, if_true]
      intro c hc
      rcases List.mem_cons.mp hc with rfl | hc
      · exact h
      · exact ih c hc
    · simp [List.takeWhile_cons, Bool.of_not_eq_true h]

theorem digit_not_space {c : Char} (h : isDigitC c = true) : isSpaceC c = false := by
  simp only [isDigitC, Bool.and_eq_true, decide_eq_true_eq] at h
  simp only [isSpaceC, Bool.or_eq_false_iff, Bool.and_eq_false_iff, beq_eq_false_iff_ne,
    ne_eq, decide_eq_false_iff_not, not_le]
  omega

theorem space_not_digit {c : Char} (h : isSpaceC c = true) : isDigitC c = false := by
  simp only [isSpaceC, Bool.or_eq_true, Bool.and_eq_true, decide_eq_true_eq,
    beq_iff_eq] at h
  simp only [isDigitC, Bool.and_eq_false_iff, decide_eq_false_iff_not, not_le]
  omega

theorem space_ne_comma {c : Char} (h : isSpaceC c = true) : c ≠ ',' := by
  intro hc; subst hc; exact absurd h (by decide)

theorem space_ne_dot {c : Char} (h : isSpaceC c = true) : c ≠ '.' := by
  intro hc; subst hc; exact absurd h (by decide)

theorem space_ne_e {c : Char} (h : isSpaceC c = true) : c ≠ 'e' ∧ c ≠ 'E' := by
  constructor <;> (intro hc; subst hc; exact absurd h (by decide))

theorem space_ne_sign {c : Char} (h : isSpaceC c = true) : c ≠ '-' ∧ c ≠ '+' := by
  constructor <;> (intro hc; subst hc; exact absurd h (by decide))

theorem digit_ne_comma {c : Char} (h : isDigitC c = true) : c ≠ ',' := by
  intro hc; subst hc; exact absurd h (by decide)

theorem digit_ne_dot {c : Char} (h : isDigitC c = true) : c ≠ '.' := by
  intro hc; subst hc; exact absurd h (by decide)

theorem digit_ne_e {c : Char} (h : isDigitC c = true) : c ≠ 'e' ∧ c ≠ 'E' := by
  constructor <;> (intro hc; subst hc; exact absurd h (by decide))

theorem digit_ne_sign {c : Char} (h : isDigitC c = true) : c ≠ '-' ∧ c ≠ '+' := by
  constructor <;> (intro hc; subst hc; exact absurd h (by decide))

theorem Sep.head_mem {r : List Char} (h : Sep r) :
    ∀ c, r.head? = some c → (c = ',' ∨ isSpaceC c = true) := by
  rcases h with rfl | ⟨c, t, rfl, hc⟩
  · intro c hc; cases hc
  · intro d hd
    simp only [List.head?_cons, Option.some.injEq] at hd
    exact hd ▸ hc

theorem Sep.takeWhile_digits {r : List Char} (h : Sep r) :
    r.takeWhile isDigitC = [] := by
  refine takeWhile_eq_nil_head _ _ fun c hc => ?_
  rcases h.head_mem c hc with rfl | hs
  · decide
  · exact space_not_digit hs

end Ckml

namespace Ckml

theorem Sep.expPart_eq {r : List Char} (hr : Sep r) : expPart r = (0, 0) := by
  have h : (r.head? = some 'e' || r.head? = some 'E') = false := by
    rcases hr with rfl | ⟨c, t, rfl, hc⟩
    · rfl
    · have hce : c ≠ 'e' ∧ c ≠ 'E' := by
        rcases hc with rfl | hs
        · exact ⟨by decide, by decide⟩
        · exact space_ne_e hs
      simp [hce.1, hce.2]
  simp only [expPart, h, Bool.false_eq_true, if_false]

theorem Sep.head_ne_dot {r : List Char} (hr : Sep r) : ¬ r.head? = some '.' := by
  intro h
  rcases hr.head_mem _ h with h' | h'
  · exact absurd h' (by decide)
  · exact absurd h' (by decide)

theorem qpow10_zero : qpow10 0 = 1 := rfl

theorem digitsNat_nil : digitsNat [] = 0 := rfl

theorem tenPow_zero : tenPow 0 = 1 := rfl

theorem strtodNum_noFrac (ds r : List Char) (hds : ∀ c ∈ ds, isDigitC c = true)
    (hne : ds ≠ []) (hr : Sep r) :
    strtodNum (ds ++ r) = ((digitsNat ds : ℚ), ds.length) := by
  have h1 : (ds ++ r).takeWhile isDigitC = ds := by
    rw [takeWhile_append_all _ _ _ hds, hr.takeWhile_digits, List.append_nil]
  have hlen : ds.length ≠ 0 := fun h => hne (List.length_eq_zero.mp h)
  simp only [strtodNum, h1, List.drop_left, hr.head_ne_dot, if_false, if_true,
    List.length_nil, hlen, List.drop_zero, hr.expPart_eq]
  rw [Prod.mk.injEq]
  refine ⟨?_, ?_⟩
  · simp [hlen, digitsNat_nil, tenPow_zero, qpow10_zero]
  · simp [hlen]

theorem strtodNum_frac (ds ds2 r : List Char) (hds : ∀ c ∈ ds, isDigitC c = true)
    (hds2 : ∀ c ∈ ds2, isDigitC c = true) (hne : ds ≠ []) (hr : Sep r) :
    strtodNum (ds ++ ('.' :: (ds2 ++ r))) =
      ((digitsNat ds : ℚ) + (digitsNat ds2 : ℚ) / tenPow ds2.length,
        ds.length + 1 + ds2.length) := by
  have h1 : (ds ++ ('.' :: (ds2 ++ r))).takeWhile isDigitC = ds := by
    rw [takeWhile_append_all _ _ _ hds]
    simp [List.takeWhile_cons, isDigitC]
  have h2 : (ds2 ++ r).takeWhile isDigitC = ds2 := by
    rw [takeWhile_append_all _ _ _ hds2, hr.takeWhile_digits, List.append_nil]
  have hlen : ds.length ≠ 0 := fun h => hne (List.length_eq_zero.mp h)
  have hdrop : ('.' :: (ds2 ++ r)).drop (1 + ds2.length) = r := by
    rw [Nat.add_comm, List.drop_succ_cons, List.drop_left]
  simp only [strtodNum, h1, List.drop_left, List.head?_cons, if_pos rfl, if_true,
    List.drop_one, List.tail_cons, h2, hlen, hdrop, hr.expPart_eq]
  rw [Prod.mk.injEq]
  refine ⟨?_, ?_⟩
  · simp [hlen, qpow10_zero]
  · simp [hlen]; omega

theorem litCore_parts {r1 : List Char}
    (h1 : (r1.takeWhile isDigitC).length ≠ 0)
    (h2 : (r1.drop (r1.takeWhile isDigitC).length).isEmpty = true ∨
      ((r1.drop (r1.takeWhile isDigitC).length).head? = some '.' ∧
        ((r1.drop (r1.takeWhile isDigitC).length).drop 1).all isDigitC = true)) :
    ∃ ds f, r1 = ds ++ f ∧ (∀ c ∈ ds, isDigitC c = true) ∧ ds ≠ [] ∧
      (f = [] ∨ ∃ ds2, f = '.' :: ds2 ∧ ∀ c ∈ ds2, isDigitC c = true) := by
  refine ⟨r1.takeWhile isDigitC, r1.drop (r1.takeWhile isDigitC).length,
    (takeWhile_add_drop _ _).symm, mem_takeWhile_pred _ _, ?_, ?_⟩
  · intro h; exact h1 (by rw [h]; rfl)
  · rcases h2 with h2 | ⟨hh, hall⟩
    · exact Or.inl (List.isEmpty_iff.mp h2)
    · right
      rcases hf : r1.drop (r1.takeWhile isDigitC).length with _ | ⟨x, f'⟩
      · rw [hf] at hh; cases hh
      · rw [hf] at hh hall
        simp only [List.head?_cons, Option.some.injEq] at hh
        refine ⟨f', by rw [hh], fun c hc => ?_⟩
        simp only [List.drop_succ_cons, List.drop_zero, List.all_eq_true] at hall
        exact hall c hc

theorem litB_parts {a : List Char} (ha : litB a = true) :
    ∃ s ds f, a = s ++ (ds ++ f) ∧ (s = [] ∨ s = ['+'] ∨ s = ['-']) ∧
      (∀ c ∈ ds, isDigitC c = true) ∧ ds ≠ [] ∧
      (f = [] ∨ ∃ ds2, f = '.' :: ds2 ∧ ∀ c ∈ ds2, isDigitC c = true) := by
  simp only [litB, Bool.and_eq_true, Bool.or_eq_true, decide_eq_true_eq, ne_eq,
    List.isEmpty_iff] at ha
  by_cases hc : a.head? = some '+' ∨ a.head? = some '-'
  · rw [if_pos hc] at ha
    rcases a with _ | ⟨c, a'⟩
    · rcases hc with hc | hc <;> cases hc
    · have hc' : c = '+' ∨ c = '-' := by
        rcases hc with hc | hc
        · exact Or.inl (by simpa using hc)
        · exact Or.inr (by simpa using hc)
      simp only [List.drop_succ_cons, List.drop_zero] at ha
      obtain ⟨ds, f, he, hds, hne, hf⟩ := litCore_parts ha.1 (by
        rcases ha.2 with h | h
        · exact Or.inl (List.isEmpty_iff.mpr h)
        · exact Or.inr h)
      exact ⟨[c], ds, f, by rw [List.singleton_append, ← he], by
        rcases hc' with rfl | rfl
        · exact Or.inr (Or.inl rfl)
        · exact Or.inr (Or.inr rfl), hds, hne, hf⟩
  · rw [if_neg hc] at ha
    obtain ⟨ds, f, he, hds, hne, hf⟩ := litCore_parts ha.1 (by
      rcases ha.2 with h | h
      · exact Or.inl (List.isEmpty_iff.mpr h)
      · exact Or.inr h)
    exact ⟨[], ds, f, by rw [List.nil_append, ← he], Or.inl rfl, hds, hne, hf⟩

theorem strtodNum_lit (ds f : List Char) (hds : ∀ c ∈ ds, isDigitC c = true)
    (hne : ds ≠ [])
    (hf : f = [] ∨ ∃ ds2, f = '.' :: ds2 ∧ ∀ c ∈ ds2, isDigitC c = true) :
    ∃ v0 : ℚ, ∀ r, Sep r → strtodNum ((ds ++ f) ++ r) = (v0, (ds ++ f).length) := by
  rcases hf with rfl | ⟨ds2, rfl, hds2⟩
  · refine ⟨(digitsNat ds : ℚ), fun r hr => ?_⟩
    simp only [List.append_nil]
    exact strtodNum_noFrac ds r hds hne hr
  · refine ⟨(digitsNat ds : ℚ) + (digitsNat ds2 : ℚ) / tenPow ds2.length, fun r hr => ?_⟩
    have he : (ds ++ ('.' :: ds2)) ++ r = ds ++ ('.' :: (ds2 ++ r)) := by
      simp [List.append_assoc]
    rw [he, strtodNum_frac ds ds2 r hds hds2 hne hr, Prod.mk.injEq]
    refine ⟨rfl, ?_⟩
    simp only [List.length_append, List.length_cons]
    omega

theorem head_not_space_of_digit {d : Char} (hd : isDigitC d = true) (t : List Char) :
    (d :: t).takeWhile isSpaceC = [] := by
  refine takeWhile_eq_nil_head _ _ fun c hc => ?_
  simp only [List.head?_cons, Option.some.injEq] at hc
  exact hc ▸ digit_not_space hd

theorem strtod_of_body (l : List Char) (v : ℚ) (n : Nat)
    (htw : l.takeWhile isSpaceC = []) (hb : strtodBody l = (v, n)) (hn : n ≠ 0) :
    strtod l = (v, n) := by
  simp only [strtod, htw, List.length_nil, List.drop_zero, hb]
  simp [hn]

theorem strtodBody_head_digit (l : List Char) (d : Char) (hd : isDigitC d = true)
    (hh : l.head? = some d) : strtodBody l = strtodNum l := by
  simp only [strtodBody, hh]
  rw [if_neg (fun h => absurd (Option.some.inj h) (digit_ne_sign hd).1),
    if_neg (fun h => absurd (Option.some.inj h) (digit_ne_sign hd).2)]

theorem strtodBody_plus (t : List Char) :
    strtodBody ('+' :: t) =
      if (strtodNum t).2 = 0 then (0, 0)
      else ((strtodNum t).1, 1 + (strtodNum t).2) := by
  simp only [strtodBody, List.head?_cons]
  rw [if_pos trivial, List.drop_succ_cons, List.drop_zero]
  rw [if_neg (show ¬(some '+' = some ('-' : Char)) from by decide)]

theorem strtodBody_minus (t : List Char) :
    strtodBody ('-' :: t) =
      if (strtodNum t).2 = 0 then (0, 0)
      else (-(strtodNum t).1, 1 + (strtodNum t).2) := by
  simp only [strtodBody, List.head?_cons]
  rw [if_pos trivial, List.drop_succ_cons, List.drop_zero]

theorem strtod_lit_exists (a : List Char) (ha : litB a = true) :
    ∃ v : ℚ, ∀ r, Sep r → strtod (a ++ r) = (v, a.length) := by
  obtain ⟨s, ds, f, rfl, hs, hds, hne, hf⟩ := litB_parts ha
  obtain ⟨v0, hv0⟩ := strtodNum_lit ds f hds hne hf
  rcases ds with _ | ⟨d, ds'⟩
  · exact absurd rfl hne
  have hd : isDigitC d = true := hds d (by simp)
  set x := (d :: ds') ++ f with hx
  have hlen0 : x.length ≠ 0 := by simp [hx]
  have hxr : ∀ r : List Char, (x ++ r).head? = some d := by
    intro r; rw [hx]; rfl
  have hxs : ∀ r : List Char, (x ++ r).takeWhile isSpaceC = [] := by
    intro r
    refine takeWhile_eq_nil_head _ _ fun c hc => ?_
    rw [hxr r] at hc
    exact (Option.some.inj hc) ▸ digit_not_space hd
  rcases hs with rfl | rfl | rfl
  · -- no sign character
    refine ⟨v0, fun r hr => ?_⟩
    have hshape : ([] ++ x) ++ r = x ++ r := by rw [List.nil_append]
    rw [hshape, List.nil_append]
    refine strtod_of_body _ _ _ (hxs r) ?_ hlen0
    rw [strtodBody_head_digit (x ++ r) d hd (hxr r), hv0 r hr]
  · -- leading '+'
    refine ⟨v0, fun r hr => ?_⟩
    have hshape : (['+'] ++ x) ++ r = '+' :: (x ++ r) := by
      rw [List.singleton_append, List.cons_append]
    rw [hshape]
    refine strtod_of_body _ _ _ ?_ ?_ (by simp [hx])
    · refine takeWhile_eq_nil_head _ _ fun c hc => ?_
      simp only [List.head?_cons, Option.some.injEq] at hc
      exact hc ▸ (by decide)
    · rw [strtodBody_plus, hv0 r hr]
      simp only [hlen0, if_false, Prod.mk.injEq, true_and]
      simp [hx, Nat.add_comm]
  · -- leading '-'
    refine ⟨-v0, fun r hr => ?_⟩
    have hshape : (['-'] ++ x) ++ r = '-' :: (x ++ r) := by
      rw [List.singleton_append, List.cons_append]
    rw [hshape]
    refine strtod_of_body _ _ _ ?_ ?_ (by simp [hx])
    · refine takeWhile_eq_nil_head _ _ fun c hc => ?_
      simp only [List.head?_cons, Option.some.injEq] at hc
      exact hc ▸ (by decide)
    · rw [strtodBody_minus, hv0 r hr]
      simp only [hlen0, if_false, Prod.mk.injEq, true_and]
      simp [hx, Nat.add_comm]

theorem strtod_append_lit (a r : List Char) (ha : litB a = true) (hr : Sep r) :
    strtod (a ++ r) = (litVal a, a.length) := by
  obtain ⟨v, hv⟩ := strtod_lit_exists a ha
  have h0 := hv [] (Or.inl rfl)
  rw [List.append_nil] at h0
  rw [hv r hr, litVal, h0]

end Ckml

namespace Ckml

theorem Sep_of_rest {rest : List Char}
    (hrest : rest = [] ∨ ∃ c r, rest = c :: r ∧ isSpaceC c = true) : Sep rest := by
  rcases hrest with rfl | ⟨c, r, rfl, hc⟩
  · exact Or.inl rfl
  · exact Or.inr ⟨c, r, rfl, Or.inr hc⟩

theorem lit_head {a : List Char} (ha : litB a = true) :
    ∃ c a', a = c :: a' ∧ isSpaceC c = false := by
  obtain ⟨s, ds, f, rfl, hs, hds, hne, hf⟩ := litB_parts ha
  rcases ds with _ | ⟨d, ds'⟩
  · exact absurd rfl hne
  have hd := hds d (by simp)
  rcases hs with rfl | rfl | rfl
  · exact ⟨d, ds' ++ f, by simp, digit_not_space hd⟩
  · exact ⟨'+', (d :: ds') ++ f, by simp, by decide⟩
  · exact ⟨'-', (d :: ds') ++ f, by simp, by decide⟩

theorem lit_chars {a : List Char} (ha : litB a = true) :
    ∀ c ∈ a, isSpaceC c = false := by
  obtain ⟨s, ds, f, rfl, hs, hds, hne, hf⟩ := litB_parts ha
  intro c hc
  rcases List.mem_append.mp hc with hc | hc
  · rcases hs with rfl | rfl | rfl
    · cases hc
    · rcases List.mem_singleton.mp hc with rfl; decide
    · rcases List.mem_singleton.mp hc with rfl; decide
  · rcases List.mem_append.mp hc with hc | hc
    · exact digit_not_space (hds c hc)
    · rcases hf with rfl | ⟨ds2, rfl, hds2⟩
      · cases hc
      · rcases List.mem_cons.mp hc with rfl | hc
        · decide
        · exact digit_not_space (hds2 c hc)

theorem WFTok.tok_head {t : List Char} {pr : ℚ × ℚ} (ht : WFTok t pr) :
    ∃ c t', t = c :: t' ∧ isSpaceC c = false := by
  rcases ht with ⟨a, b, rfl, ha, hb, hpr⟩ | ⟨a, b, c, rfl, ha, hb, hc, hpr⟩
  · obtain ⟨c, a', rfl, hcs⟩ := lit_head ha
    exact ⟨c, a' ++ (',' :: b), by simp, hcs⟩
  · obtain ⟨d, a', rfl, hcs⟩ := lit_head ha
    exact ⟨d, a' ++ (',' :: (b ++ (',' :: c))), by simp, hcs⟩

theorem WFTok.chars {t : List Char} {pr : ℚ × ℚ} (ht : WFTok t pr) :
    ∀ c ∈ t, isSpaceC c = false := by
  rcases ht with ⟨a, b, rfl, ha, hb, hpr⟩ | ⟨a, b, c, rfl, ha, hb, hc, hpr⟩ <;> intro x hx
  · rcases List.mem_append.mp hx with hx | hx
    · exact lit_chars ha x hx
    · rcases List.mem_cons.mp hx with rfl | hx
      · decide
      · exact lit_chars hb x hx
  · rcases List.mem_append.mp hx with hx | hx
    · exact lit_chars ha x hx
    · rcases List.mem_cons.mp hx with rfl | hx
      · decide
      · rcases List.mem_append.mp hx with hx | hx
        · exact lit_chars hb x hx
        · rcases List.mem_cons.mp hx with rfl | hx
          · decide
          · exact lit_chars hc x hx

end Ckml

namespace Ckml

theorem takeWhile_space_token {t rest : List Char} {pr : ℚ × ℚ} (ht : WFTok t pr) :
    (t ++ rest).takeWhile isSpaceC = [] := by
  obtain ⟨c, t', rfl, hcs⟩ := ht.tok_head
  simp [List.takeWhile_cons, hcs]

theorem parseLoop_good {l : List Char} {ps : List (ℚ × ℚ)} (hg : GoodInput l ps) :
    ∀ fuel, l.length < fuel → parseLoop fuel l = ps := by
  induction hg with
  | nil ws hws =>
    intro fuel hfuel
    rcases fuel with _ | m
    · omega
    have htw : ws.takeWhile isSpaceC = ws := by
      have := takeWhile_append_all isSpaceC ws [] hws
      simpa using this
    simp [parseLoop, htw, List.drop_length]
  | cons ws t rest pr ps hws ht hrest hg ih =>
    intro fuel hfuel
    rcases fuel with _ | m
    · omega
    obtain ⟨tc, tt, htc, htcs⟩ := ht.tok_head
    have hassoc : ws ++ t ++ rest = ws ++ (t ++ rest) := List.append_assoc ws t rest
    have htw : (ws ++ (t ++ rest)).takeWhile isSpaceC = ws := by
      rw [takeWhile_append_all isSpaceC ws (t ++ rest) hws, takeWhile_space_token ht,
        List.append_nil]
    have hlt : t.length ≠ 0 := by rw [htc]; simp
    have hrestlen : rest.length < m := by
      rw [hassoc] at hfuel
      simp only [List.length_append] at hfuel
      omega
    rw [hassoc]
    show parseLoop (m + 1) (ws ++ (t ++ rest)) = pr :: ps
    simp only [parseLoop, htw, List.drop_left]
    rw [if_neg (by rw [htc]; simp)]
    have hskip : (rest.takeWhile fun c => !isSpaceC c) = [] := by
      refine takeWhile_eq_nil_head _ _ fun c hc => ?_
      rcases hrest with rfl | ⟨d, r', rfl, hd⟩
      · cases hc
      · simp only [List.head?_cons, Option.some.injEq] at hc
        subst hc
        simp [hd]
    have hrest_not_comma : ¬ rest.head? = some ',' := by
      intro hh
      rcases hrest with rfl | ⟨d, r', rfl, hd⟩
      · cases hh
      · simp only [List.head?_cons, Option.some.injEq] at hh
        exact space_ne_comma (hh ▸ hd) rfl
    rcases ht with ⟨a, b, rfl, ha, hb, hpr⟩ | ⟨a, b, c, rfl, ha, hb, hc, hpr⟩
    · -- two fields: lon , lat
      have hshape : (a ++ (',' :: b)) ++ rest = a ++ (',' :: (b ++ rest)) := by
        rw [List.append_assoc]; rfl
      rw [hshape]
      rw [strtod_append_lit a (',' :: (b ++ rest)) ha
        (Or.inr ⟨',', b ++ rest, rfl, Or.inl rfl⟩)]
      simp only [List.drop_left, List.head?_cons]
      rw [if_pos trivial]
      simp only [List.drop_one, List.tail_cons]
      rw [strtod_append_lit b rest hb (Sep_of_rest hrest)]
      simp only [List.drop_left]
      rw [if_neg hrest_not_comma]
      rw [hskip]
      simp only [List.length_nil, List.drop_zero]
      rw [ih m hrestlen, hpr, litVal, litVal]
    · -- three fields: lon , lat , alt
      have hshape : (a ++ (',' :: (b ++ (',' :: c)))) ++ rest =
          a ++ (',' :: (b ++ (',' :: (c ++ rest)))) := by
        simp [List.append_assoc]
      rw [hshape]
      rw [strtod_append_lit a (',' :: (b ++ (',' :: (c ++ rest)))) ha
        (Or.inr ⟨',', _, rfl, Or.inl rfl⟩)]
      simp only [List.drop_left, List.head?_cons]
      rw [if_pos trivial]
      simp only [List.drop_one, List.tail_cons]
      rw [strtod_append_lit b (',' :: (c ++ rest)) hb
        (Or.inr ⟨',', c ++ rest, rfl, Or.inl rfl⟩)]
      simp only [List.drop_left, List.head?_cons]
      rw [if_pos trivial]
      simp only [List.drop_one, List.tail_cons]
      rw [strtod_append_lit c rest hc (Sep_of_rest hrest)]
      have hdropc : (',' :: (c ++ rest)).drop (1 + c.length) = rest := by
        rw [Nat.add_comm, List.drop_succ_cons, List.drop_left]
      rw [hdropc, hskip]
      simp only [List.length_nil, List.drop_zero]
      rw [ih m hrestlen, hpr, litVal, litVal]

end Ckml

namespace Ckml

theorem tokenizeLoop_good {l : List Char} {ps : List (ℚ × ℚ)} (hg : GoodInput l ps) :
    ∀ fuel, l.length < fuel → (tokenizeLoop fuel l).length = ps.length := by
  induction hg with
  | nil ws hws =>
    intro fuel hfuel
    rcases fuel with _ | m
    · omega
    have htw : ws.takeWhile isSpaceC = ws := by
      have := takeWhile_append_all isSpaceC ws [] hws
      simpa using this
    simp [tokenizeLoop, htw, List.drop_length]
  | cons ws t rest pr ps hws ht hrest hg ih =>
    intro fuel hfuel
    rcases fuel with _ | m
    · omega
    obtain ⟨tc, tt, htc, htcs⟩ := ht.tok_head
    have hassoc : ws ++ t ++ rest = ws ++ (t ++ rest) := List.append_assoc ws t rest
    have htw : (ws ++ (t ++ rest)).takeWhile isSpaceC = ws := by
      rw [takeWhile_append_all isSpaceC ws (t ++ rest) hws, takeWhile_space_token ht,
        List.append_nil]
    have hrestlen : rest.length < m := by
      rw [hassoc] at hfuel
      simp only [List.length_append] at hfuel
      have : t.length ≠ 0 := by rw [htc]; simp
      omega
    have hskip : (rest.takeWhile fun c => !isSpaceC c) = [] := by
      refine takeWhile_eq_nil_head _ _ fun c hc => ?_
      rcases hrest with rfl | ⟨d, r', rfl, hd⟩
      · cases hc
      · simp only [List.head?_cons, Option.some.injEq] at hc
        subst hc
        simp [hd]
    have htok : ((t ++ rest).takeWhile fun c => !isSpaceC c) = t := by
      rw [takeWhile_append_all _ t rest (fun c hc => by simp [ht.chars c hc]), hskip,
        List.append_nil]
    rw [hassoc]
    show (tokenizeLoop (m + 1) (ws ++ (t ++ rest))).length = (pr :: ps).length
    simp only [tokenizeLoop, htw, List.drop_left]
    rw [if_neg (by rw [htc]; simp), htok]
    simp only [List.drop_left, List.length_cons]
    rw [ih m hrestlen]

end Ckml

namespace Ckml

theorem step_progress (p p1 p2 p3 p4 r : List Char) (c : Char) (p' : List Char)
    (hpc : p = c :: p') (hcs : isSpaceC c = false)
    (e1 : p1 = p.drop (strtod p).2)
    (e2 : p2 = if p1.head? = some ',' then p1.drop 1 else p1)
    (e3 : p3 = p2.drop (strtod p2).2)
    (e4 : p4 = if p3.head? = some ',' then p3.drop (1 + (strtod (p3.drop 1)).2) else p3)
    (e5 : r = p4.drop (p4.takeWhile (fun x => !isSpaceC x)).length) :
    r.length < p.length := by
  subst e5 e4 e3 e2 e1
  have hplen : 1 ≤ p.length := by rw [hpc]; simp
  by_cases h1 : (strtod p).2 = 0
  · rw [h1]
    simp only [List.drop_zero]
    by_cases h2 : p.head? = some ','
    · rw [if_pos h2]
      have : ((p.drop 1).drop (strtod (p.drop 1)).2).length ≤ p.length - 1 := by
        simp only [List.length_drop]
        omega
      split
      · simp only [List.length_drop] at *
        omega
      · simp only [List.length_drop] at *
        omega
    · rw [if_neg h2, h1]
      simp only [List.drop_zero, if_neg h2]
      have htw : (p.takeWhile fun x => !isSpaceC x).length ≥ 1 := by
        rw [hpc, List.takeWhile_cons, if_pos (by simp [hcs])]
        simp
      simp only [List.length_drop]
      omega
  · have hc1 : 1 ≤ (strtod p).2 := Nat.one_le_iff_ne_zero.mpr h1
    simp only [List.length_drop]
    split <;> split <;> (simp only [List.length_drop]; omega)

end Ckml

namespace Ckml

theorem drop_takeWhile_head (q : Char → Bool) (l : List Char) :
    ∀ c, (l.drop (l.takeWhile q).length).head? = some c → q c = false := by
  induction l with
  | nil => intro c hc; cases hc
  | cons a l ih =>
    by_cases h : q a = true
    · intro c hc
      rw [List.takeWhile_cons, if_pos h] at hc
      simp only [List.length_cons, List.drop_succ_cons] at hc
      exact ih c hc
    · intro c hc
      rw [List.takeWhile_cons, if_neg h] at hc
      simp only [List.length_nil, List.drop_zero, List.head?_cons,
        Option.some.injEq] at hc
      subst hc
      simpa using h

theorem parseLoop_fuel_eq : ∀ (k : Nat) (l : List Char) (f1 f2 : Nat), l.length ≤ k →
    l.length < f1 → l.length < f2 → parseLoop f1 l = parseLoop f2 l := by
  intro k
  induction k with
  | zero =>
    intro l f1 f2 hk h1 h2
    have hl : l = [] := List.length_eq_zero.mp (Nat.le_zero.mp hk)
    subst hl
    rcases f1 with _ | m1
    · omega
    rcases f2 with _ | m2
    · omega
    simp [parseLoop]
  | succ k ih =>
    intro l f1 f2 hk h1 h2
    rcases f1 with _ | m1
    · omega
    rcases f2 with _ | m2
    · omega
    show parseLoop (m1 + 1) l = parseLoop (m2 + 1) l
    simp only [parseLoop]
    by_cases hpe : l.drop (l.takeWhile isSpaceC).length = []
    · simp [hpe]
    · rw [if_neg hpe, if_neg hpe]
      obtain ⟨c, p', hpc⟩ := List.exists_cons_of_ne_nil hpe
      have hcs : isSpaceC c = false := by
        refine drop_takeWhile_head isSpaceC l c ?_
        rw [hpc]; rfl
      have hprog := step_progress _ _ _ _ _ _ c p' hpc hcs rfl rfl rfl rfl rfl
      have hple : (l.drop (l.takeWhile isSpaceC).length).length ≤ l.length := by
        simp [List.length_drop]
      congr 1
      exact ih _ m1 m2 (by omega) (by omega) (by omega)

theorem parse_coords_eq_parseLoop (l : List Char) (fuel : Nat) (hf : l.length < fuel) :
    parseLoop fuel l = parse_coords l :=
  parseLoop_fuel_eq l.length l fuel (l.length + 1) le_rfl hf (Nat.lt_succ_self _)

end Ckml

namespace Ckml

theorem strtod_noFrac (ds : List Char) (hds : ∀ c ∈ ds, isDigitC c = true)
    (hne : ds ≠ []) : strtod ds = ((digitsNat ds : ℚ), ds.length) := by
  rcases ds with _ | ⟨d, ds'⟩
  · exact absurd rfl hne
  have hd := hds d (by simp)
  have hnum : strtodNum (d :: ds') = ((digitsNat (d :: ds') : ℚ), (d :: ds').length) := by
    have := strtodNum_noFrac (d :: ds') [] hds hne (Or.inl rfl)
    simpa using this
  refine strtod_of_body _ _ _ (head_not_space_of_digit hd _) ?_ (by simp)
  rw [strtodBody_head_digit (d :: ds') d hd rfl, hnum]

theorem strtod_frac (ds ds2 : List Char) (hds : ∀ c ∈ ds, isDigitC c = true)
    (hds2 : ∀ c ∈ ds2, isDigitC c = true) (hne : ds ≠ []) :
    strtod (ds ++ ('.' :: ds2)) =
      ((digitsNat ds : ℚ) + (digitsNat ds2 : ℚ) / tenPow ds2.length,
        ds.length + 1 + ds2.length) := by
  rcases ds with _ | ⟨d, ds'⟩
  · exact absurd rfl hne
  have hd := hds d (by simp)
  have hnum : strtodNum ((d :: ds') ++ ('.' :: ds2)) =
      ((digitsNat (d :: ds') : ℚ) + (digitsNat ds2 : ℚ) / tenPow ds2.length,
        (d :: ds').length + 1 + ds2.length) := by
    have := strtodNum_frac (d :: ds') ds2 [] hds hds2 hne (Or.inl rfl)
    simpa using this
  have hh : ((d :: ds') ++ ('.' :: ds2)).head? = some d := rfl
  refine strtod_of_body _ _ _ ?_ ?_ (by simp)
  · refine takeWhile_eq_nil_head _ _ fun c hc => ?_
    rw [hh] at hc
    exact (Option.some.inj hc) ▸ digit_not_space hd
  · rw [strtodBody_head_digit _ d hd hh, hnum]

theorem strtod_neg (x : List Char) (v : ℚ) (n : Nat) (hn : n ≠ 0)
    (hxn : strtodNum x = (v, n)) :
    strtod ('-' :: x) = (-v, 1 + n) := by
  refine strtod_of_body _ _ _ ?_ ?_ (by simp)
  · refine takeWhile_eq_nil_head _ _ fun c hc => ?_
    simp only [List.head?_cons, Option.some.injEq] at hc
    exact hc ▸ (by decide)
  · rw [strtodBody_minus, hxn]
    simp [hn]

end Ckml

namespace Ckml

theorem strtodNum_frac_nil (ds ds2 : List Char) (hds : ∀ c ∈ ds, isDigitC c = true)
    (hds2 : ∀ c ∈ ds2, isDigitC c = true) (hne : ds ≠ []) :
    strtodNum (ds ++ ('.' :: ds2)) =
      ((digitsNat ds : ℚ) + (digitsNat ds2 : ℚ) / tenPow ds2.length,
        ds.length + 1 + ds2.length) := by
  have := strtodNum_frac ds ds2 [] hds hds2 hne (Or.inl rfl)
  simpa using this

theorem parse_single_tok (t : List Char) (pr : ℚ × ℚ) (ht : WFTok t pr) :
    parse_coords t = [pr] := by
  have hg : GoodInput t [pr] := by
    have hsh : ([] ++ t) ++ ([] : List Char) = t := by simp
    rw [← hsh]
    exact GoodInput.cons [] t [] pr [] (by simp) ht (Or.inl rfl)
      (GoodInput.nil [] (by simp))
  exact parseLoop_good hg _ (Nat.lt_succ_self _)

theorem parse_two_tok (t1 t2 : List Char) (p1 p2 : ℚ × ℚ)
    (h1 : WFTok t1 p1) (h2 : WFTok t2 p2) :
    parse_coords (t1 ++ (' ' :: t2)) = [p1, p2] := by
  have hg : GoodInput (t1 ++ (' ' :: t2)) [p1, p2] := by
    have hsh : ([] ++ t1) ++ (' ' :: t2) = t1 ++ (' ' :: t2) := by simp
    rw [← hsh]
    have hsp : isSpaceC ' ' = true := by decide
    refine GoodInput.cons [] t1 (' ' :: t2) p1 [p2] (by simp) h1
      (Or.inr ⟨' ', t2, rfl, hsp⟩) ?_
    have hsh2 : ([' '] ++ t2) ++ ([] : List Char) = ' ' :: t2 := by simp
    rw [← hsh2]
    exact GoodInput.cons [' '] t2 [] p2 [] (by simpa using hsp) h2 (Or.inl rfl)
      (GoodInput.nil [] (by simp))
  exact parseLoop_good hg _ (Nat.lt_succ_self _)

end Ckml

/-! ### Parser claims -/

namespace Ckml

theorem wfTok_1_2 : WFTok ['1', ',', '2'] ((2 : ℚ), (1 : ℚ)) := by
  refine Or.inl ⟨['1'], ['2'], rfl, by decide, by decide, ?_⟩
  rw [strtod_noFrac ['2'] (by decide) (by decide),
    strtod_noFrac ['1'] (by decide) (by decide)]
  norm_num [show digitsNat ['2'] = 2 from by decide,
    show digitsNat ['1'] = 1 from by decide]

theorem wfTok_1_2_3 : WFTok ['1', ',', '2', ',', '3'] ((2 : ℚ), (1 : ℚ)) := by
  refine Or.inr ⟨['1'], ['2'], ['3'], rfl, by decide, by decide, by decide, ?_⟩
  rw [strtod_noFrac ['2'] (by decide) (by decide),
    strtod_noFrac ['1'] (by decide) (by decide)]
  norm_num [show digitsNat ['2'] = 2 from by decide,
    show digitsNat ['1'] = 1 from by decide]

theorem wfTok_4_5_6 : WFTok ['4', ',', '5', ',', '6'] ((5 : ℚ), (4 : ℚ)) := by
  refine Or.inr ⟨['4'], ['5'], ['6'], rfl, by decide, by decide, by decide, ?_⟩
  rw [strtod_noFrac ['5'] (by decide) (by decide),
    strtod_noFrac ['4'] (by decide) (by decide)]
  norm_num [show digitsNat ['5'] = 5 from by decide,
    show digitsNat ['4'] = 4 from by decide]

theorem wfTok_neg1 : WFTok ['-', '1', '2', '2', '.', '1', ',', '3', '7', '.', '7']
    ((37.7 : ℚ), (-122.1 : ℚ)) := by
  have hnum : strtodNum ['1', '2', '2', '.', '1'] =
      ((digitsNat ['1', '2', '2'] : ℚ) + (digitsNat ['1'] : ℚ) / tenPow 1, 5) := by
    simpa using strtodNum_frac_nil ['1', '2', '2'] ['1'] (by decide) (by decide)
      (by decide)
  have hneg := strtod_neg _ _ _ (by decide) hnum
  refine Or.inl ⟨['-', '1', '2', '2', '.', '1'], ['3', '7', '.', '7'], rfl,
    by decide, by decide, ?_⟩
  rw [show (['3', '7', '.', '7'] : List Char) = ['3', '7'] ++ ('.' :: ['7']) from rfl,
    strtod_frac ['3', '7'] ['7'] (by decide) (by decide) (by decide),
    show (['-', '1', '2', '2', '.', '1'] : List Char) =
      '-' :: (['1', '2', '2'] ++ ('.' :: ['1'])) from rfl]
  rw [show ('-' :: (['1', '2', '2'] ++ ('.' :: ['1']))) =
      '-' :: ['1', '2', '2', '.', '1'] from rfl, hneg]
  norm_num [show digitsNat ['3', '7'] = 37 from by decide,
    show digitsNat ['7'] = 7 from by decide,
    show digitsNat ['1', '2', '2'] = 122 from by decide,
    show digitsNat ['1'] = 1 from by decide, tenPow]

theorem wfTok_neg2 : WFTok ['-', '1', '2', '2', '.', '2', ',', '3', '7', '.', '8']
    ((37.8 : ℚ), (-122.2 : ℚ)) := by
  have hnum : strtodNum ['1', '2', '2', '.', '2'] =
      ((digitsNat ['1', '2', '2'] : ℚ) + (digitsNat ['2'] : ℚ) / tenPow 1, 5) := by
    simpa using strtodNum_frac_nil ['1', '2', '2'] ['2'] (by decide) (by decide)
      (by decide)
  have hneg := strtod_neg _ _ _ (by decide) hnum
  refine Or.inl ⟨['-', '1', '2', '2', '.', '2'], ['3', '7', '.', '8'], rfl,
    by decide, by decide, ?_⟩
  rw [show (['3', '7', '.', '8'] : List Char) = ['3', '7'] ++ ('.' :: ['8']) from rfl,
    strtod_frac ['3', '7'] ['8'] (by decide) (by decide) (by decide),
    show (['-', '1', '2', '2', '.', '2'] : List Char) =
      '-' :: (['1', '2', '2'] ++ ('.' :: ['2'])) from rfl]
  rw [show ('-' :: (['1', '2', '2'] ++ ('.' :: ['2']))) =
      '-' :: ['1', '2', '2', '.', '2'] from rfl, hneg]
  norm_num [show digitsNat ['3', '7'] = 37 from by decide,
    show digitsNat ['8'] = 8 from by decide,
    show digitsNat ['1', '2', '2'] = 122 from by decide,
    show digitsNat ['2'] = 2 from by decide, tenPow]

/-- Claim C2 (corrected), counterexample: on the input `"1 2"` the parser
merges the two whitespace-separated tokens into a single coordinate pair,
because `strtod` itself skips the whitespace between them when reading the
latitude field; the output has one pair while the input has two tokens. -/
theorem parse_coords_token_count_counterexample :
    (parse_coords ['1', ' ', '2']).length = 1 ∧
      (tokenize ['1', ' ', '2']).length = 2 := by
  decide

/-- Claim C2 (amended): for inputs made of whitespace-separated *well-formed*
tokens — two or three comma-separated plain decimal literals — `parse_coords`
returns exactly one pair per token, in token order, and its output length
equals the number of whitespace-separated tokens. -/
theorem parse_coords_pair_per_token (l : List Char) (ps : List (ℚ × ℚ))
    (hg : GoodInput l ps) :
    parse_coords l = ps ∧ (tokenize l).length = ps.length :=
  ⟨parseLoop_good hg _ (Nat.lt_succ_self _), tokenizeLoop_good hg _ (Nat.lt_succ_self _)⟩

/-- Witness for `parse_coords_pair_per_token` at the input `"1,2"`. -/
theorem parse_coords_pair_per_token_witness :
    parse_coords ['1', ',', '2'] = [((2 : ℚ), (1 : ℚ))] ∧
      (tokenize ['1', ',', '2']).length = 1 := by
  have hg : GoodInput ['1', ',', '2'] [((2 : ℚ), (1 : ℚ))] := by
    rw [← (show (([] ++ ['1', ',', '2']) ++ ([] : List Char)) = ['1', ',', '2']
      from rfl)]
    exact GoodInput.cons [] _ [] _ [] (by simp) wfTok_1_2 (Or.inl rfl)
      (GoodInput.nil [] (by simp))
  exact ⟨(parse_coords_pair_per_token _ _ hg).1, (parse_coords_pair_per_token _ _ hg).2⟩

/-- Claim C3: the parser emits `(lat, lon)`, swapping the textual `lon,lat`
order; a third comma-separated altitude field is parsed and discarded; the
spec's two concrete examples evaluate as stated. -/
theorem parse_coords_latlon_swap :
    (∀ a b : List Char, litB a = true → litB b = true →
      parse_coords (a ++ (',' :: b)) = [((strtod b).1, (strtod a).1)]) ∧
    (∀ a b c : List Char, litB a = true → litB b = true → litB c = true →
      parse_coords (a ++ (',' :: (b ++ (',' :: c)))) =
        [((strtod b).1, (strtod a).1)]) ∧
    parse_coords ['1', ',', '2', ',', '3', ' ', '4', ',', '5', ',', '6'] =
      [((2 : ℚ), (1 : ℚ)), ((5 : ℚ), (4 : ℚ))] ∧
    parse_coords ['-', '1', '2', '2', '.', '1', ',', '3', '7', '.', '7', ' ',
        '-', '1', '2', '2', '.', '2', ',', '3', '7', '.', '8'] =
      [((37.7 : ℚ), (-122.1 : ℚ)), ((37.8 : ℚ), (-122.2 : ℚ))] := by
  refine ⟨?_, ?_, ?_, ?_⟩
  · intro a b ha hb
    exact parse_single_tok _ _ (Or.inl ⟨a, b, rfl, ha, hb, rfl⟩)
  · intro a b c ha hb hc
    exact parse_single_tok _ _ (Or.inr ⟨a, b, c, rfl, ha, hb, hc, rfl⟩)
  · rw [show (['1', ',', '2', ',', '3', ' ', '4', ',', '5', ',', '6'] : List Char) =
      ['1', ',', '2', ',', '3'] ++ (' ' :: ['4', ',', '5', ',', '6']) from rfl]
    exact parse_two_tok _ _ _ _ wfTok_1_2_3 wfTok_4_5_6
  · rw [show (['-', '1', '2', '2', '.', '1', ',', '3', '7', '.', '7', ' ',
        '-', '1', '2', '2', '.', '2', ',', '3', '7', '.', '8'] : List Char) =
      ['-', '1', '2', '2', '.', '1', ',', '3', '7', '.', '7'] ++
        (' ' :: ['-', '1', '2', '2', '.', '2', ',', '3', '7', '.', '8']) from rfl]
    exact parse_two_tok _ _ _ _ wfTok_neg1 wfTok_neg2

/-- Witness for `parse_coords_latlon_swap` at the tokens `"1,2"` and
`"1,2,3"`. -/
theorem parse_coords_latlon_swap_witness :
    litB ['1'] = true ∧ litB ['2'] = true ∧ litB ['3'] = true ∧
      parse_coords (['1'] ++ (',' :: ['2'])) = [((strtod ['2']).1, (strtod ['1']).1)] ∧
      parse_coords (['1'] ++ (',' :: (['2'] ++ (',' :: ['3'])))) =
        [((strtod ['2']).1, (strtod ['1']).1)] :=
  ⟨by decide, by decide, by decide,
    parse_coords_latlon_swap.1 ['1'] ['2'] (by decide) (by decide),
    parse_coords_latlon_swap.2.1 ['1'] ['2'] ['3'] (by decide) (by decide) (by decide)⟩

/-- Claim C9: the parser is a total function — the fuelled loop gives the
same result for every sufficient fuel value, so `parse_coords` models the
terminating C loop on every input — and whitespace-only or empty inputs
yield the empty list. -/
theorem parse_coords_total :
    (∀ (l : List Char) (fuel : Nat), l.length < fuel →
      parseLoop fuel l = parse_coords l) ∧
    parse_coords [] = [] ∧
    (∀ l : List Char, (∀ c ∈ l, isSpaceC c = true) → parse_coords l = []) := by
  refine ⟨parse_coords_eq_parseLoop, rfl, fun l hws => ?_⟩
  exact parseLoop_good (GoodInput.nil l hws) _ (Nat.lt_succ_self _)

/-- Witness for `parse_coords_total` at fuel 5 on `"1"` and at the
whitespace-only input `"  "`. -/
theorem parse_coords_total_witness :
    (['1'] : List Char).length < 5 ∧ parseLoop 5 ['1'] = parse_coords ['1'] ∧
      (∀ c ∈ ([' ', ' '] : List Char), isSpaceC c = true) ∧
      parse_coords [' ', ' '] = [] :=
  ⟨by decide, parse_coords_total.1 ['1'] 5 (by decide), by decide,
    parse_coords_total.2.2 [' ', ' '] (by decide)⟩

end Ckml

/-! ### Geometry lemmas -/

namespace Cgeom

open Real

theorem atan2_nonneg {y x : ℝ} (hy : 0 ≤ y) (hx : 0 ≤ x) : 0 ≤ atan2 y x := by
  simp only [atan2]
  rcases lt_or_eq_of_le hx with hx' | hx'
  · rw [if_pos hx']
    have h := Real.arctan_strictMono.monotone (div_nonneg hy hx'.le)
    simpa [Real.arctan_zero] using h
  · rw [← hx']
    rw [if_neg (lt_irrefl 0), if_neg (fun h => lt_irrefl 0 h.1),
      if_neg (fun h => lt_irrefl 0 h.1)]
    rcases lt_or_eq_of_le hy with hy' | hy'
    · rw [if_pos ⟨rfl, hy'⟩]
      positivity
    · rw [← hy']
      rw [if_neg (fun h => lt_irrefl (0:ℝ) h.2), if_neg (fun h => lt_irrefl (0:ℝ) h.2)]

theorem haversine_self (a : ℝ × ℝ) : haversine_distance a a = 0 := by
  simp only [haversine_distance, sub_self, zero_mul, zero_div, Real.sin_zero,
    mul_zero, zero_add, add_zero, Real.sqrt_zero, sub_zero, Real.sqrt_one]
  rw [show atan2 0 1 = 0 from by
    simp only [atan2]
    rw [if_pos (by norm_num : (0:ℝ) < 1)]
    simp [Real.arctan_zero]]
  ring

theorem haversine_comm (a b : ℝ × ℝ) :
    haversine_distance a b = haversine_distance b a := by
  simp only [haversine_distance]
  have h1 : (b.1 - a.1) * π / 180.0 / 2 = -((a.1 - b.1) * π / 180.0 / 2) := by ring
  have h2 : (b.2 - a.2) * π / 180.0 / 2 = -((a.2 - b.2) * π / 180.0 / 2) := by ring
  rw [h1, h2]
  simp only [Real.sin_neg]
  ring_nf

theorem haversine_nonneg (a b : ℝ × ℝ) : 0 ≤ haversine_distance a b := by
  simp only [haversine_distance]
  refine mul_nonneg (by norm_num) (mul_nonneg (by norm_num) ?_)
  exact atan2_nonneg (Real.sqrt_nonneg _) (Real.sqrt_nonneg _)

end Cgeom

namespace Cgeom

/-- Claim C4: a ring with fewer than 3 points has area exactly `0.0` and
contains no point, with no error raised (both functions return through the
degenerate-input branch). -/
theorem degenerate_ring (ring : List (ℝ × ℝ)) (h : ring.length < 3) :
    polygon_area ring = 0 ∧ ∀ p : ℝ × ℝ, point_in_polygon p ring = false := by
  refine ⟨?_, fun p => ?_⟩
  · simp only [polygon_area]
    rw [if_pos h]
  · simp only [point_in_polygon]
    rw [if_pos h]

/-- Witness for `degenerate_ring` at a two-point ring. -/
theorem degenerate_ring_witness :
    ([((0:ℝ), (0:ℝ)), ((1:ℝ), (1:ℝ))].length < 3) ∧
      polygon_area [((0:ℝ), (0:ℝ)), ((1:ℝ), (1:ℝ))] = 0 ∧
      point_in_polygon ((5:ℝ), (5:ℝ)) [((0:ℝ), (0:ℝ)), ((1:ℝ), (1:ℝ))] = false :=
  ⟨by decide, (degenerate_ring _ (by decide)).1, (degenerate_ring _ (by decide)).2 (5, 5)⟩

/-- Claim C5: the haversine distance is exactly symmetric and exactly zero
on identical endpoints (in the exact-real model of the double arithmetic). -/
theorem haversine_symm_self :
    (∀ a b : ℝ × ℝ, haversine_distance a b = haversine_distance b a) ∧
    (∀ a : ℝ × ℝ, haversine_distance a a = 0) :=
  ⟨haversine_comm, haversine_self⟩

/-- Claim C7: the haversine distance is non-negative for all inputs; the
Earth radius used is 6 371 000 m (see `haversine_distance`). -/
theorem haversine_distance_nonneg : ∀ a b : ℝ × ℝ, 0 ≤ haversine_distance a b :=
  haversine_nonneg

end Cgeom

namespace Cgeom

open Real

theorem foldl_cross (pts : List (ℝ × ℝ)) :
    ∀ (a : ℝ) (q : ℝ × ℝ),
      (pts.foldl (fun st pt => (st.1 + crossT st.2 pt, pt)) (a, q)).1 = a + adjSum q pts := by
  induction pts with
  | nil => intro a q; simp [adjSum]
  | cons p rest ih =>
    intro a q
    simp only [List.foldl_cons, adjSum]
    rw [ih (a + crossT q p) p]
    ring

theorem adjSum_eq_sum (l : List (ℝ × ℝ)) :
    ∀ q, adjSum q l = ∑ i ∈ Finset.range l.length,
      crossT ((q :: l).getD i (0, 0)) (l.getD i (0, 0)) := by
  induction l with
  | nil => intro q; simp [adjSum]
  | cons p rest ih =>
    intro q
    simp only [adjSum, List.length_cons, Finset.sum_range_succ']
    rw [ih p]
    simp only [List.getD_cons_succ, List.getD_cons_zero]
    ring

theorem getLast?_getD_eq (l : List (ℝ × ℝ)) (d : ℝ × ℝ) :
    l.getLast?.getD d = l.getD (l.length - 1) d := by
  induction l with
  | nil => rfl
  | cons a l ih =>
    cases l with
    | nil => rfl
    | cons b t =>
      rw [List.getLast?_cons_cons, ih]
      simp [List.getD_cons_succ]

theorem adjSum_last_eq_ringSum (l : List (ℝ × ℝ)) (hl : l ≠ []) :
    adjSum (l.getLast?.getD (0, 0)) l = ringSum l := by
  have hn : 0 < l.length := List.length_pos.mpr hl
  rw [adjSum_eq_sum, ringSum]
  refine Finset.sum_congr rfl fun i hi => ?_
  rw [Finset.mem_range] at hi
  rcases i with _ | j
  · rw [List.getD_cons_zero, getLast?_getD_eq]
    congr 2
    rw [Nat.zero_add, Nat.mod_eq_of_lt (by omega)]
  · rw [List.getD_cons_succ]
    congr 2
    have h1 : j + 1 + (l.length - 1) = j + l.length := by omega
    rw [h1, Nat.add_mod_right, Nat.mod_eq_of_lt (by omega)]

theorem rotate_last (l : List (ℝ × ℝ)) (hl : l ≠ []) :
    l.rotate (l.length - 1) = l.getLast?.getD (0, 0) :: l.dropLast := by
  have e := List.dropLast_append_getLast hl
  have hlen : l.dropLast.length = l.length - 1 := List.length_dropLast l
  have hd : l.drop (l.length - 1) = [l.getLast hl] := by
    conv_lhs => rw [← e]
    exact List.drop_left' (by simp)
  have ht : l.take (l.length - 1) = l.dropLast := by
    conv_lhs => rw [← e]
    exact List.take_left' (by simp)
  rw [List.rotate_eq_drop_append_take (Nat.sub_le _ _), hd, ht,
    List.getLast?_eq_getLast_of_ne_nil hl]
  rfl

theorem zip_pred_sum (l : List (ℝ × ℝ)) :
    ∀ q, (((q :: l.dropLast).zip l).map fun pc => crossT pc.1 pc.2).sum = adjSum q l := by
  induction l with
  | nil => intro q; simp [adjSum]
  | cons p rest ih =>
    intro q
    cases rest with
    | nil => simp [adjSum]
    | cons r rs =>
      have hdl : (p :: r :: rs).dropLast = p :: (r :: rs).dropLast := rfl
      rw [hdl, List.zip_cons_cons, List.map_cons, List.sum_cons, ih p]
      simp [adjSum]

end Cgeom

namespace Cgeom

open Real

theorem polygon_area_eq (ring : List (ℝ × ℝ)) (h3 : 3 ≤ ring.length) :
    polygon_area ring =
      |ringSum (ring.map (projPt (latCent ring) (lonCent ring)
        (Real.cos (latCent ring * π / 180.0))))| / 2 * 111320.0 * 111320.0 := by
  have hne : ring.map (projPt (latCent ring) (lonCent ring)
      (Real.cos (latCent ring * π / 180.0))) ≠ [] := by
    have h0 : ring ≠ [] := by
      intro h
      rw [h] at h3
      simp at h3
    simp [h0]
  simp only [polygon_area]
  rw [if_neg (not_lt.mpr h3), foldl_cross, zero_add, adjSum_last_eq_ringSum _ hne]

theorem polygon_area_spec_eq (ring : List (ℝ × ℝ)) (hne : ring ≠ []) :
    polygon_area_spec ring =
      1 / 2 * |ringSum (ring.map (projPt (latCent ring) (lonCent ring)
        (Real.cos (latCent ring * π / 180.0))))| * (111320.0 * 111320.0) := by
  have hmapne : ring.map (projPt (latCent ring) (lonCent ring)
      (Real.cos (latCent ring * π / 180.0))) ≠ [] := by simp [hne]
  simp only [polygon_area_spec]
  rw [show (fun c : ℝ × ℝ =>
      ((c.2 - (ring.map Prod.snd).sum / (ring.length : ℝ)) *
        Real.cos ((ring.map Prod.fst).sum / (ring.length : ℝ) * π / 180.0),
        c.1 - (ring.map Prod.fst).sum / (ring.length : ℝ))) =
    projPt (latCent ring) (lonCent ring) (Real.cos (latCent ring * π / 180.0)) from rfl]
  rw [show ring.length = (ring.map (projPt (latCent ring) (lonCent ring)
      (Real.cos (latCent ring * π / 180.0)))).length from (List.length_map _ _).symm]
  rw [rotate_last _ hmapne]
  rw [show (fun pc : (ℝ × ℝ) × (ℝ × ℝ) => pc.1.1 * pc.2.2 - pc.2.1 * pc.1.2) =
    (fun pc : (ℝ × ℝ) × (ℝ × ℝ) => crossT pc.1 pc.2) from rfl]
  rw [zip_pred_sum, adjSum_last_eq_ringSum _ hmapne]

/-- Claim C1: for every ring of at least 3 vertices, `polygon_area` computes
exactly the value described by the specification — mean-vertex centroid,
equirectangular projection, absolute shoelace sum over the closed ring
(wrapping last to first), halved and scaled by `111320.0²`
(`polygon_area_spec`). -/
theorem polygon_area_refines_spec (ring : List (ℝ × ℝ)) (h3 : 3 ≤ ring.length) :
    polygon_area ring = polygon_area_spec ring := by
  have hne : ring ≠ [] := by
    intro h
    rw [h] at h3
    simp at h3
  rw [polygon_area_eq ring h3, polygon_area_spec_eq ring hne]
  ring

/-- Witness for `polygon_area_refines_spec` at a concrete triangle. -/
theorem polygon_area_refines_spec_witness :
    3 ≤ ([((0:ℝ), (0:ℝ)), ((1:ℝ), (0:ℝ)), ((0:ℝ), (1:ℝ))] : List (ℝ × ℝ)).length ∧
      polygon_area [((0:ℝ), (0:ℝ)), ((1:ℝ), (0:ℝ)), ((0:ℝ), (1:ℝ))] =
        polygon_area_spec [((0:ℝ), (0:ℝ)), ((1:ℝ), (0:ℝ)), ((0:ℝ), (1:ℝ))] :=
  ⟨by decide, polygon_area_refines_spec _ (by decide)⟩

end Cgeom

namespace Cgeom

open Real

theorem sum_range_mod_shift {M : Type} [AddCommMonoid M] (n k : ℕ) (hn : 0 < n)
    (g : ℕ → M) :
    ∑ i ∈ Finset.range n, g ((i + k) % n) = ∑ i ∈ Finset.range n, g (i % n) := by
  haveI : NeZero n := ⟨hn.ne'⟩
  rw [← Fin.sum_univ_eq_sum_range (fun i => g ((i + k) % n)) n,
    ← Fin.sum_univ_eq_sum_range (fun i => g (i % n)) n]
  have h := Equiv.sum_comp (Equiv.addRight (⟨k % n, Nat.mod_lt _ hn⟩ : Fin n))
    (fun j : Fin n => g (j.val % n))
  rw [← h]
  refine Finset.sum_congr rfl fun i _ => ?_
  congr 1
  show (i.val + k) % n = ((i + (⟨k % n, Nat.mod_lt _ hn⟩ : Fin n)).val) % n
  rw [Fin.val_add, Nat.mod_mod_of_dvd _ dvd_rfl]
  conv_lhs => rw [Nat.add_mod]
  conv_rhs => rw [Nat.add_mod, Nat.mod_mod_of_dvd _ dvd_rfl]

end Cgeom

namespace Cgeom

open Real

theorem getD_rotate (l : List (ℝ × ℝ)) (k i : ℕ) (h : i < l.length) :
    (l.rotate k).getD i (0, 0) = l.getD ((i + k) % l.length) (0, 0) := by
  have h1 : i < (l.rotate k).length := by rw [List.length_rotate]; exact h
  have h2 : (i + k) % l.length < l.length := Nat.mod_lt _ (by omega)
  rw [List.getD_eq_getElem _ _ h1, List.getD_eq_getElem _ _ h2]
  have h3 := List.get_rotate l k ⟨i, h1⟩
  simpa [List.get_eq_getElem] using h3

theorem ringSum_rotate (l : List (ℝ × ℝ)) (k : ℕ) (hl : l ≠ []) :
    ringSum (l.rotate k) = ringSum l := by
  have hn : 0 < l.length := List.length_pos.mpr hl
  set n := l.length with hdefn
  have hlen : (l.rotate k).length = n := List.length_rotate l k
  rw [ringSum, ringSum, hlen]
  have hstep : ∀ i ∈ Finset.range n,
      crossT ((l.rotate k).getD ((i + (n - 1)) % n) (0, 0)) ((l.rotate k).getD i (0, 0)) =
      (fun j => crossT (l.getD ((j % n + (n - 1)) % n) (0, 0)) (l.getD (j % n) (0, 0)))
        ((i + k) % n) := by
    intro i hi
    rw [Finset.mem_range] at hi
    have e1 : (l.rotate k).getD ((i + (n - 1)) % n) (0, 0) =
        l.getD (((i + (n - 1)) % n + k) % n) (0, 0) := by
      rw [getD_rotate l k _ (by exact Nat.mod_lt _ hn)]
    have e2 : (l.rotate k).getD i (0, 0) = l.getD ((i + k) % n) (0, 0) := by
      rw [getD_rotate l k i (by omega)]
    rw [e1, e2]
    have e3 : ((i + (n - 1)) % n + k) % n = ((i + k) % n + (n - 1)) % n := by
      rw [Nat.mod_add_mod, Nat.mod_add_mod]
      congr 1
      omega
    have e4 : (i + k) % n % n = (i + k) % n := Nat.mod_mod_of_dvd _ dvd_rfl
    simp only [e3, e4]
  rw [Finset.sum_congr rfl hstep,
    sum_range_mod_shift n k hn
      (fun j => crossT (l.getD ((j % n + (n - 1)) % n) (0, 0)) (l.getD (j % n) (0, 0)))]
  refine Finset.sum_congr rfl fun i hi => ?_
  rw [Finset.mem_range] at hi
  simp only [Nat.mod_eq_of_lt hi]

end Cgeom

namespace Cgeom

open Real

theorem crossT_antisymm (a b : ℝ × ℝ) : crossT a b = -crossT b a := by
  simp only [crossT]
  ring

theorem getD_reverse (l : List (ℝ × ℝ)) (i : ℕ) (h : i < l.length) :
    l.reverse.getD i (0, 0) = l.getD (l.length - 1 - i) (0, 0) := by
  have h1 : i < l.reverse.length := by rw [List.length_reverse]; exact h
  have h2 : l.length - 1 - i < l.length := by omega
  rw [List.getD_eq_getElem _ _ h1, List.getD_eq_getElem _ _ h2]
  exact List.getElem_reverse _

theorem pred_mod (n i : ℕ) (hn : 0 < n) (hi : i < n) :
    (i + (n - 1)) % n = if i = 0 then n - 1 else i - 1 := by
  rcases i with _ | j
  · rw [if_pos rfl, Nat.zero_add, Nat.mod_eq_of_lt (by omega)]
  · rw [if_neg (Nat.succ_ne_zero j)]
    have e : j + 1 + (n - 1) = j + n := by omega
    rw [e, Nat.add_mod_right, Nat.mod_eq_of_lt (by omega)]
    omega

theorem ringSum_reverse (l : List (ℝ × ℝ)) (hl : l ≠ []) :
    ringSum l.reverse = -(ringSum l) := by
  have hn : 0 < l.length := List.length_pos.mpr hl
  set n := l.length with hdefn
  have hlen : l.reverse.length = n := List.length_reverse l
  rw [ringSum, ringSum, hlen]
  have hstep : ∀ i ∈ Finset.range n,
      crossT (l.reverse.getD ((i + (n - 1)) % n) (0, 0)) (l.reverse.getD i (0, 0)) =
      (fun j => crossT (l.getD ((j + 1) % n) (0, 0)) (l.getD (j % n) (0, 0))) (n - 1 - i) := by
    intro i hi
    rw [Finset.mem_range] at hi
    have e1 : l.reverse.getD ((i + (n - 1)) % n) (0, 0) =
        l.getD (n - 1 - ((i + (n - 1)) % n)) (0, 0) := by
      rw [getD_reverse l _ (Nat.mod_lt _ hn)]
    have e2 : l.reverse.getD i (0, 0) = l.getD (n - 1 - i) (0, 0) := by
      rw [getD_reverse l i (by omega)]
    rw [e1, e2, pred_mod n i hn hi]
    have e3 : n - 1 - (if i = 0 then n - 1 else i - 1) = (n - 1 - i + 1) % n := by
      rcases i with _ | j
      · rw [if_pos rfl, Nat.sub_self]
        have h4 : n - 1 - 0 + 1 = n := by omega
        rw [h4, Nat.mod_self]
      · rw [if_neg (Nat.succ_ne_zero j)]
        have h4 : n - 1 - (j + 1) + 1 = n - 1 - j := by omega
        rw [h4, Nat.mod_eq_of_lt (by omega)]
        omega
    rw [e3]
    simp only [Nat.mod_eq_of_lt (show n - 1 - i < n from by omega)]
  rw [Finset.sum_congr rfl hstep,
    Finset.sum_range_reflect
      (fun j => crossT (l.getD ((j + 1) % n) (0, 0)) (l.getD (j % n) (0, 0))) n,
    ← hdefn]
  have hG := sum_range_mod_shift n 1 hn
    (fun j => crossT (l.getD ((j % n + (n - 1)) % n) (0, 0)) (l.getD (j % n) (0, 0)))
  have hterm : ∀ i ∈ Finset.range n,
      (fun j => crossT (l.getD ((j % n + (n - 1)) % n) (0, 0)) (l.getD (j % n) (0, 0)))
        ((i + 1) % n) =
      -((fun j => crossT (l.getD ((j + 1) % n) (0, 0)) (l.getD (j % n) (0, 0))) i) := by
    intro i hi
    rw [Finset.mem_range] at hi
    simp only
    have e5 : (i + 1) % n % n = (i + 1) % n := Nat.mod_mod_of_dvd _ dvd_rfl
    have e6 : ((i + 1) % n + (n - 1)) % n = i := by
      rw [Nat.mod_add_mod]
      have h7 : i + 1 + (n - 1) = i + n := by omega
      rw [h7, Nat.add_mod_right, Nat.mod_eq_of_lt hi]
    rw [e5, e6, Nat.mod_eq_of_lt hi, crossT_antisymm]
  have hsum : ∑ i ∈ Finset.range n,
      (fun j => crossT (l.getD ((j % n + (n - 1)) % n) (0, 0)) (l.getD (j % n) (0, 0)))
        ((i + 1) % n) =
      -(∑ i ∈ Finset.range n, (fun j => crossT (l.getD ((j + 1) % n) (0, 0))
        (l.getD (j % n) (0, 0))) i) := by
    rw [Finset.sum_congr rfl hterm, Finset.sum_neg_distrib]
  have hid : ∑ i ∈ Finset.range n,
      (fun j => crossT (l.getD ((j % n + (n - 1)) % n) (0, 0)) (l.getD (j % n) (0, 0)))
        (i % n) =
      ∑ i ∈ Finset.range n, crossT (l.getD ((i + (n - 1)) % n) (0, 0)) (l.getD i (0, 0)) := by
    refine Finset.sum_congr rfl fun i hi => ?_
    rw [Finset.mem_range] at hi
    simp only [Nat.mod_eq_of_lt hi]
  linarith [hG, hsum, hid]

end Cgeom

namespace Cgeom

open Real

theorem latCent_rotate (l : List (ℝ × ℝ)) (k : ℕ) : latCent (l.rotate k) = latCent l := by
  simp only [latCent]
  rw [List.map_rotate, List.length_rotate, ((l.map Prod.fst).rotate_perm k).sum_eq]

theorem lonCent_rotate (l : List (ℝ × ℝ)) (k : ℕ) : lonCent (l.rotate k) = lonCent l := by
  simp only [lonCent]
  rw [List.map_rotate, List.length_rotate, ((l.map Prod.snd).rotate_perm k).sum_eq]

theorem latCent_reverse (l : List (ℝ × ℝ)) : latCent l.reverse = latCent l := by
  simp only [latCent]
  rw [List.map_reverse, List.sum_reverse, List.length_reverse]

theorem lonCent_reverse (l : List (ℝ × ℝ)) : lonCent l.reverse = lonCent l := by
  simp only [lonCent]
  rw [List.map_reverse, List.sum_reverse, List.length_reverse]

/-- Claim C8: for every ring of 3 or more vertices, the polygon area is
unchanged by starting the ring at a different vertex (cyclic rotation) and
by reversing the vertex order. -/
theorem polygon_area_invariant (ring : List (ℝ × ℝ)) (h3 : 3 ≤ ring.length) :
    (∀ k, polygon_area (ring.rotate k) = polygon_area ring) ∧
      polygon_area ring.reverse = polygon_area ring := by
  have hne : ring ≠ [] := by
    intro h
    rw [h] at h3
    simp at h3
  constructor
  · intro k
    have h3' : 3 ≤ (ring.rotate k).length := by rw [List.length_rotate]; exact h3
    rw [polygon_area_eq _ h3', polygon_area_eq _ h3]
    have e : ringSum ((ring.rotate k).map (projPt (latCent (ring.rotate k))
        (lonCent (ring.rotate k)) (Real.cos (latCent (ring.rotate k) * π / 180.0)))) =
        ringSum (ring.map (projPt (latCent ring) (lonCent ring)
          (Real.cos (latCent ring * π / 180.0)))) := by
      rw [latCent_rotate, lonCent_rotate, List.map_rotate]
      exact ringSum_rotate _ k (by simp [hne])
    rw [e]
  · have h3' : 3 ≤ ring.reverse.length := by rw [List.length_reverse]; exact h3
    rw [polygon_area_eq _ h3', polygon_area_eq _ h3]
    have e : ringSum (ring.reverse.map (projPt (latCent ring.reverse)
        (lonCent ring.reverse) (Real.cos (latCent ring.reverse * π / 180.0)))) =
        -(ringSum (ring.map (projPt (latCent ring) (lonCent ring)
          (Real.cos (latCent ring * π / 180.0))))) := by
      rw [latCent_reverse, lonCent_reverse, List.map_reverse]
      exact ringSum_reverse _ (by simp [hne])
    rw [e, abs_neg]

/-- Witness for `polygon_area_invariant` at a concrete triangle rotated by 1. -/
theorem polygon_area_invariant_witness :
    3 ≤ ([((0:ℝ), (0:ℝ)), ((1:ℝ), (0:ℝ)), ((0:ℝ), (1:ℝ))] : List (ℝ × ℝ)).length ∧
      polygon_area (([((0:ℝ), (0:ℝ)), ((1:ℝ), (0:ℝ)), ((0:ℝ), (1:ℝ))] :
        List (ℝ × ℝ)).rotate 1) =
        polygon_area [((0:ℝ), (0:ℝ)), ((1:ℝ), (0:ℝ)), ((0:ℝ), (1:ℝ))] ∧
      polygon_area (([((0:ℝ), (0:ℝ)), ((1:ℝ), (0:ℝ)), ((0:ℝ), (1:ℝ))] :
        List (ℝ × ℝ)).reverse) =
        polygon_area [((0:ℝ), (0:ℝ)), ((1:ℝ), (0:ℝ)), ((0:ℝ), (1:ℝ))] :=
  ⟨by decide, (polygon_area_invariant _ (by decide)).1 1,
    (polygon_area_invariant _ (by decide)).2⟩

end Cgeom

namespace Cgeom

theorem foldl_toggle (P : ℕ → Prop) [DecidablePred P] :
    ∀ (li : List ℕ) (b : Bool),
      li.foldl (fun ins i => if P i then !ins else ins) b =
        b.xor (decide (Odd (li.countP fun i => decide (P i)))) := by
  intro li
  induction li with
  | nil =>
    intro b
    simp
  | cons i li ih =>
    intro b
    rw [List.foldl_cons, List.countP_cons]
    by_cases hp : P i
    · rw [if_pos hp, ih (!b)]
      rw [show (if (fun i => decide (P i)) i = true then 1 else 0) = 1 from by simp [hp]]
      rw [show decide (Odd (List.countP (fun i => decide (P i)) li + 1)) =
        !decide (Odd (List.countP (fun i => decide (P i)) li)) from by
          by_cases h : Odd (List.countP (fun i => decide (P i)) li) <;>
            simp [h, Nat.odd_add_one]]
      cases b <;> cases hodd : decide (Odd (List.countP (fun i => decide (P i)) li)) <;>
        simp
    · rw [if_neg hp, ih b]
      rw [show (if (fun i => decide (P i)) i = true then 1 else 0) = 0 from by simp [hp]]
      simp

theorem point_in_polygon_parity (p : ℝ × ℝ) (poly : List (ℝ × ℝ))
    (h3 : ¬ poly.length < 3) :
    point_in_polygon p poly =
      decide (Odd ((List.range poly.length).countP fun i => decide (Cross p poly i))) := by
  simp only [point_in_polygon]
  rw [if_neg h3]
  have hfun : (fun (inside : Bool) i =>
      if Xor' ((poly.getD i (0, 0)).2 > p.2)
          ((poly.getD ((i + 1) % poly.length) (0, 0)).2 > p.2) then
        if p.1 < ((poly.getD ((i + 1) % poly.length) (0, 0)).1 - (poly.getD i (0, 0)).1) *
            (p.2 - (poly.getD i (0, 0)).2) /
            ((poly.getD ((i + 1) % poly.length) (0, 0)).2 - (poly.getD i (0, 0)).2 + 1e-12) +
            (poly.getD i (0, 0)).1 then !inside
        else inside
      else inside) = fun inside i => if Cross p poly i then !inside else inside := by
    funext b i
    by_cases hs : Xor' ((poly.getD i (0, 0)).2 > p.2)
        ((poly.getD ((i + 1) % poly.length) (0, 0)).2 > p.2)
    · rw [if_pos hs]
      by_cases hl : p.1 < ((poly.getD ((i + 1) % poly.length) (0, 0)).1 -
          (poly.getD i (0, 0)).1) * (p.2 - (poly.getD i (0, 0)).2) /
          ((poly.getD ((i + 1) % poly.length) (0, 0)).2 - (poly.getD i (0, 0)).2 + 1e-12) +
          (poly.getD i (0, 0)).1
      · rw [if_pos hl, if_pos (show Cross p poly i from ⟨hs, hl⟩)]
      · rw [if_neg hl, if_neg (show ¬ Cross p poly i from fun h => hl h.2)]
    · rw [if_neg hs, if_neg (show ¬ Cross p poly i from fun h => hs h.1)]
  rw [hfun, foldl_toggle (Cross p poly) (List.range poly.length) false]
  simp

end Cgeom

namespace Cgeom

theorem countP_range_eq_sum (P : ℕ → Prop) [DecidablePred P] (n : ℕ) :
    (List.range n).countP (fun i => decide (P i)) =
      ∑ i ∈ Finset.range n, if P i then 1 else 0 := by
  induction n with
  | zero => simp
  | succ m ih =>
    rw [List.range_succ, List.countP_append, Finset.sum_range_succ, ih]
    by_cases h : P m <;> simp [h, List.countP_cons]

/-- Claim C10: `point_in_polygon` gives the same answer when the ring is
cyclically rotated to start at a different vertex — the closed ring's edge
set, hence the number of crossing toggles, is unchanged. -/
theorem point_in_polygon_rotate (p : ℝ × ℝ) (ring : List (ℝ × ℝ)) (k : ℕ)
    (h3 : 3 ≤ ring.length) :
    point_in_polygon p (ring.rotate k) = point_in_polygon p ring := by
  have hn : 0 < ring.length := by omega
  rw [point_in_polygon_parity p _ (by rw [List.length_rotate]; omega),
    point_in_polygon_parity p ring (by omega)]
  have hcount : (List.range (ring.rotate k).length).countP
      (fun i => decide (Cross p (ring.rotate k) i)) =
      (List.range ring.length).countP (fun i => decide (Cross p ring i)) := by
    rw [List.length_rotate, countP_range_eq_sum, countP_range_eq_sum]
    have hstep : ∀ i ∈ Finset.range ring.length,
        (if Cross p (ring.rotate k) i then (1 : ℕ) else 0) =
        (fun j => if Cross p ring (j % ring.length) then (1 : ℕ) else 0)
          ((i + k) % ring.length) := by
      intro i hi
      rw [Finset.mem_range] at hi
      have hc : Cross p (ring.rotate k) i = Cross p ring ((i + k) % ring.length) := by
        simp only [Cross, List.length_rotate]
        rw [getD_rotate ring k i hi, getD_rotate ring k _ (Nat.mod_lt _ hn)]
        have e : ((i + 1) % ring.length + k) % ring.length =
            ((i + k) % ring.length + 1) % ring.length := by
          rw [Nat.mod_add_mod, Nat.mod_add_mod]
          congr 1
          omega
        rw [e]
      simp only [hc, Nat.mod_mod_of_dvd _ dvd_rfl]
    rw [Finset.sum_congr rfl hstep,
      sum_range_mod_shift _ k hn
        (fun j => if Cross p ring (j % ring.length) then (1 : ℕ) else 0)]
    refine Finset.sum_congr rfl fun i hi => ?_
    rw [Finset.mem_range] at hi
    simp only [Nat.mod_eq_of_lt hi]
  rw [hcount]

/-- Witness for `point_in_polygon_rotate`: the unit square rotated by one
vertex, tested at `(0.5, 0.5)`. -/
theorem point_in_polygon_rotate_witness :
    3 ≤ ([((0:ℝ), (0:ℝ)), ((0:ℝ), (1:ℝ)), ((1:ℝ), (1:ℝ)), ((1:ℝ), (0:ℝ))] :
      List (ℝ × ℝ)).length ∧
    point_in_polygon ((0.5 : ℝ), (0.5 : ℝ))
        (([((0:ℝ), (0:ℝ)), ((0:ℝ), (1:ℝ)), ((1:ℝ), (1:ℝ)), ((1:ℝ), (0:ℝ))] :
          List (ℝ × ℝ)).rotate 1) =
      point_in_polygon ((0.5 : ℝ), (0.5 : ℝ))
        [((0:ℝ), (0:ℝ)), ((0:ℝ), (1:ℝ)), ((1:ℝ), (1:ℝ)), ((1:ℝ), (0:ℝ))] :=
  ⟨by decide, point_in_polygon_rotate _ _ 1 (by decide)⟩

end Cgeom

namespace Cgeom

/-- Claim C6: for the square ring `[(0,0),(0,1),(1,1),(1,0)]` in `(lat, lon)`
order, the point `(0.5, 0.5)` is inside and the point `(2, 2)` is outside,
under the even-odd ray-casting rule with the epsilon-guarded crossing
interpolation built into `point_in_polygon`. -/
theorem point_in_polygon_square :
    point_in_polygon ((0.5 : ℝ), (0.5 : ℝ))
        [((0:ℝ), (0:ℝ)), ((0:ℝ), (1:ℝ)), ((1:ℝ), (1:ℝ)), ((1:ℝ), (0:ℝ))] = true ∧
    point_in_polygon ((2 : ℝ), (2 : ℝ))
        [((0:ℝ), (0:ℝ)), ((0:ℝ), (1:ℝ)), ((1:ℝ), (1:ℝ)), ((1:ℝ), (0:ℝ))] = false := by
  constructor <;>
    norm_num [point_in_polygon, show List.range 4 = [0, 1, 2, 3] from rfl,
      List.foldl_cons, List.foldl_nil, List.getD_cons_zero, List.getD_cons_succ, Xor']

end Cgeom
